import Mathlib

/-!
Verification of the reconciliation and transactional apply/revert engine of
go-simple-postgresql-migrate (src/main.go), as a shallow embedding.

The embedding models:
  * migration-file parsing (`readMigrationFromFile`, `cleanUpSQLString`);
  * the reconciler (`checkConsistencyOfDatabaseAndLocalFileSystem`);
  * the transactional applier as a state machine over an abstract database
    state `α` (`migrateForwardRun`, `migrateBackwardRun`): SQL payloads are
    opaque, interpreted by a parameter `exec : String → α → Option α`
    where `none` means the statement fails (and the enclosing transaction
    is rolled back, so the pre-state is kept);
  * the command layer (`cmd_up`, `cmd_down`, `cmd_destroy`).

Error exits / panics in the Go source become constructors of `MigErr`;
the state returned alongside an error is always the rolled-back pre-state
of the failing unit of work.
-/

namespace Migrate

/-- Taxonomy of failures of the core (each corresponds to an error exit or
panic path of src/main.go). -/
inductive MigErr where
  | NoDefinitionsFound
  | MalformedDefinition (fileName : String)
  | LedgerAheadOfSource
  | LedgerDivergesFromSource (index : Nat) (dbName : String) (fsName : String)
  | EffectExecutionFailed (fileName : String)
  | LedgerWriteFailed (fileName : String)
  | LedgerReadFailed
  | FileReadFailed (fileName : String)
deriving DecidableEq, Repr

/-- Go `CONST_TEMPLATE_UNDO_MARKER` (src/main.go line 39): the separator
between the forward and the backward part of a migration file. -/
def undoMarker : String :=
  "\n--\n-- UNDO (DOWN) migration is below this line:\n-- (do not change this block!)\n--\n"

/-- Fuel-driven splitter on character lists: splits around each leftmost,
non-overlapping occurrence of `sep`, like Go `strings.Split` for a non-empty
separator.  `fuel` only serves structural termination; with
`fuel = s.length` (as used by `splitOnStr`) the fallback case is never hit. -/
def splitOnFuel (sep : List Char) : Nat → List Char → List Char → List (List Char)
  | _, [], acc => [acc.reverse]
  | 0, s, acc => [acc.reverse ++ s]
  | fuel + 1, c :: rest, acc =>
    if sep.isPrefixOf (c :: rest) then
      acc.reverse :: splitOnFuel sep fuel ((c :: rest).drop sep.length) []
    else
      splitOnFuel sep fuel rest (c :: acc)

/-- Go `strings.Split(s, sep)` for non-empty `sep` (src/main.go line 436).
For non-empty `sep`, Go `strings.Contains(s, sep)` is equivalent to the
split having length greater than one. -/
def splitOnStr (sep s : String) : List String :=
  (splitOnFuel sep.data s.data.length s.data []).map List.asString

/-- Go `strings.TrimSpace` (ASCII whitespace; the migration payloads the
tool handles are ASCII SQL). -/
def trimStr (s : String) : String :=
  List.asString (((s.data.dropWhile Char.isWhitespace).reverse.dropWhile Char.isWhitespace).reverse)

/-- Go `cleanUpSQLString` (src/main.go lines 461-470): blank every line
matching `(?m)^--[^\n]*$` (i.e. every line starting with `--`), then trim
surrounding whitespace. -/
def cleanUpSQLString (sqlString : String) : String :=
  trimStr (String.intercalate "\n"
    ((splitOnStr "\n" sqlString).map
      (fun l => if ['-', '-'].isPrefixOf l.data then "" else l)))

/-- Go `readMigrationFromFile` (src/main.go lines 416-458), with the file
content passed in instead of read from disk.  The three error exits
(separator missing, split not of length two, empty forward/backward part)
are all `MalformedDefinition` per the spec taxonomy. -/
def readMigrationFromFile (fileName content : String) : Except MigErr (String × String) :=
  let parts := splitOnStr undoMarker content
  if parts.length = 1 then
    .error (.MalformedDefinition fileName)
  else
    match parts with
    | [up, down] =>
      let sqlMigrationForward := cleanUpSQLString up
      if sqlMigrationForward = "" then
        .error (.MalformedDefinition fileName)
      else
        let sqlMigrationBackward := cleanUpSQLString down
        if sqlMigrationBackward = "" then
          .error (.MalformedDefinition fileName)
        else
          .ok (sqlMigrationForward, sqlMigrationBackward)
    | _ => .error (.MalformedDefinition fileName)

/-- Is the parse a success?  (Models "the error exit was not taken".) -/
def isOkResult (r : Except MigErr (String × String)) : Bool :=
  match r with
  | .ok _ => true
  | .error _ => false

/-- The validation loop of `checkConsistencyOfDatabaseAndLocalFileSystem`
(src/main.go lines 485-487): parse every migration file in order and stop at
the first failure.  `fs` is the association list of file name to content. -/
def validateAll : List (String × String) → Option MigErr
  | [] => none
  | (n, c) :: rest =>
    match readMigrationFromFile n c with
    | .error e => some e
    | .ok _ => validateAll rest

/-- The index scan of src/main.go lines 500-506: first position where the
ledger name differs from the file-system name, together with both names. -/
def firstMismatch : Nat → List String → List String → Option (Nat × String × String)
  | _, [], _ => none
  | _, _ :: _, [] => none
  | i, d :: ds, f :: fsn =>
    if d = f then firstMismatch (i + 1) ds fsn else some (i, d, f)

/-- Go `checkConsistencyOfDatabaseAndLocalFileSystem` (src/main.go lines
473-509), the Reconciler.  `fs` is the ordered list of migration files
(name, content) from the file system; `db` the ledger names in id order. -/
def checkConsistencyOfDatabaseAndLocalFileSystem
    (fs : List (String × String)) (db : List String) :
    Except MigErr (List String × List String) :=
  if fs.isEmpty then
    .error .NoDefinitionsFound
  else
    match validateAll fs with
    | some e => .error e
    | none =>
      if fs.length < db.length then
        .error .LedgerAheadOfSource
      else
        match firstMismatch 0 db (fs.map Prod.fst) with
        | some (i, dn, fn) => .error (.LedgerDivergesFromSource i dn fn)
        | none => .ok (fs.map Prod.fst, db)

/-- A row of the `_go_simple_postgresql_migrate` table (src/main.go line 36):
`id serial, created_at timestamp with time zone DEFAULT NOW(), filename text,
UNIQUE(filename)`.  Timestamps are abstracted as naturals. -/
structure LedgerEntry where
  id : Nat
  appliedAt : Nat
  name : String
deriving DecidableEq, Repr

/-- The database as seen by the engine: an abstract observable state `α`
(everything SQL effects act on), plus the ledger table.  The ledger list is
kept in `id`-ascending order (the order `serial` assigns ids in); `nextId`
models the serial sequence (ids are not reused after a delete) and `clock`
the `NOW()` timestamp source, advanced on each committed insert. -/
structure PgState (α : Type) where
  db : α
  ledger : List LedgerEntry
  nextId : Nat
  clock : Nat
deriving DecidableEq, Repr

/-- Go `getMigrationsFromDatabase` (src/main.go lines 363-392):
`SELECT filename FROM ... ORDER BY id ASC`; the ledger list is stored in id
order, so this is the list of names. -/
def dbNames {α : Type} (s : PgState α) : List String :=
  s.ledger.map (fun e => e.name)

/-- The row selected by `SELECT id, filename FROM ... ORDER BY created_at
DESC LIMIT 1` (src/main.go lines 593-597): an entry with maximal
`appliedAt`.  On ties SQL may return any maximal row; the fold keeps the
first, and on the reachable states of this engine timestamps are distinct. -/
def mostRecent : List LedgerEntry → Option LedgerEntry
  | [] => none
  | e :: rest =>
    some (rest.foldl (fun best x => if best.appliedAt < x.appliedAt then x else best) e)

/-- Go `migrateForward` (src/main.go lines 539-577): one unit of work.
Execute the forward SQL; on failure the transaction is rolled back (the
pre-state is kept).  On success insert the ledger row — the `UNIQUE(filename)`
constraint of the table schema (line 36) makes the insert, and with it the
whole unit, fail if the name is already present. -/
def migrateForwardRun {α : Type} (exec : String → α → Option α)
    (s : PgState α) (fileName sqlMigrationForward : String) :
    PgState α × Option MigErr :=
  match exec sqlMigrationForward s.db with
  | none => (s, some (.EffectExecutionFailed fileName))
  | some db2 =>
    if s.ledger.any (fun e => e.name == fileName) then
      (s, some (.LedgerWriteFailed fileName))
    else
      (⟨db2, s.ledger ++ [⟨s.nextId, s.clock, fileName⟩], s.nextId + 1, s.clock + 1⟩, none)

/-- Go `migrateBackward` (src/main.go lines 580-630): one unit of work.
Re-read the most recent ledger entry inside the transaction; the source
scans its filename into a variable but never compares it with `fileName`
(the comment at line 590 notwithstanding), then executes the backward SQL
and deletes the re-read row by id.  Each failure rolls the unit back. -/
def migrateBackwardRun {α : Type} (exec : String → α → Option α)
    (s : PgState α) (fileName sqlMigrationBackward : String) :
    PgState α × Option MigErr :=
  match mostRecent s.ledger with
  | none => (s, some .LedgerReadFailed)
  | some mostRecentEntry =>
    match exec sqlMigrationBackward s.db with
    | none => (s, some (.EffectExecutionFailed fileName))
    | some db2 =>
      (⟨db2, s.ledger.filter (fun x => x.id != mostRecentEntry.id), s.nextId, s.clock⟩, none)

/-- Result of the `up` command. -/
inductive UpOutcome where
  | completed
  | alreadyUpToDate (mostRecentName : Option String)
  | err (e : MigErr)
deriving DecidableEq, Repr

/-- Result of the `down` command.  `emptyLedger` is the "There are no
further migrations that can be reverted." exit (src/main.go lines 638-641),
the spec's `EmptyLedger`. -/
inductive DownOutcome where
  | reverted (name : String)
  | emptyLedger
  | err (e : MigErr)
deriving DecidableEq, Repr

/-- The loop body of `cmd_up` (src/main.go lines 527-535): for each delta
file name, re-read and parse the file, then run the forward unit of work;
the run halts at the first failure. -/
def applyLoop {α : Type} (exec : String → α → Option α)
    (fs : List (String × String)) (s : PgState α) :
    List String → PgState α × Option MigErr
  | [] => (s, none)
  | n :: rest =>
    match fs.lookup n with
    | none => (s, some (.FileReadFailed n))
    | some content =>
      match readMigrationFromFile n content with
      | .error e => (s, some e)
      | .ok (sqlMigrationForward, _) =>
        match migrateForwardRun exec s n sqlMigrationForward with
        | (s2, none) => applyLoop exec fs s2 rest
        | (s2, some e) => (s2, some e)

/-- Go `cmd_up` (src/main.go lines 512-536). -/
def cmd_up {α : Type} (exec : String → α → Option α)
    (fs : List (String × String)) (s : PgState α) : PgState α × UpOutcome :=
  match checkConsistencyOfDatabaseAndLocalFileSystem fs (dbNames s) with
  | .error e => (s, .err e)
  | .ok (migrationsInFileSystem, migrationsInDatabase) =>
    if migrationsInDatabase.length = migrationsInFileSystem.length then
      (s, .alreadyUpToDate migrationsInDatabase.getLast?)
    else
      match applyLoop exec fs s (migrationsInFileSystem.drop migrationsInDatabase.length) with
      | (s2, none) => (s2, .completed)
      | (s2, some e) => (s2, .err e)

/-- Go `cmd_down` (src/main.go lines 633-653). -/
def cmd_down {α : Type} (exec : String → α → Option α)
    (fs : List (String × String)) (s : PgState α) : PgState α × DownOutcome :=
  match checkConsistencyOfDatabaseAndLocalFileSystem fs (dbNames s) with
  | .error e => (s, .err e)
  | .ok (_, migrationsInDatabase) =>
    match migrationsInDatabase.getLast? with
    | none => (s, .emptyLedger)
    | some mostRecentMigrationFileName =>
      match fs.lookup mostRecentMigrationFileName with
      | none => (s, .err (.FileReadFailed mostRecentMigrationFileName))
      | some content =>
        match readMigrationFromFile mostRecentMigrationFileName content with
        | .error e => (s, .err e)
        | .ok (_, sqlMigrationBackward) =>
          match migrateBackwardRun exec s mostRecentMigrationFileName sqlMigrationBackward with
          | (s2, none) => (s2, .reverted mostRecentMigrationFileName)
          | (s2, some e) => (s2, .err e)

/-- Iterate `cmd_down` a fixed number of times, halting early on anything
but a successful revert; the boolean reports whether all iterations were
successful reverts. -/
def revertN {α : Type} (exec : String → α → Option α)
    (fs : List (String × String)) : Nat → PgState α → PgState α × Bool
  | 0, s => (s, true)
  | k + 1, s =>
    match cmd_down exec fs s with
    | (s2, .reverted _) => revertN exec fs k s2
    | (s2, _) => (s2, false)

/-- Go `cmd_destroy` (src/main.go lines 656-660): `for { cmd_down() }`.
The loop itself is unbounded; it stops because `cmd_down` exits the process
(on an empty ledger, or on any failure).  `fuel` bounds the recursion for
the embedding; `none` in the result means the fuel ran out before the loop
stopped.  Returns the final state, the number of successful reverts, and
the outcome `cmd_down` stopped the process with. -/
def cmd_destroy {α : Type} (exec : String → α → Option α)
    (fs : List (String × String)) : Nat → PgState α → PgState α × Nat × Option DownOutcome
  | 0, s => (s, 0, none)
  | fuel + 1, s =>
    match cmd_down exec fs s with
    | (s2, .reverted _) =>
      match cmd_destroy exec fs fuel s2 with
      | (s3, k, o) => (s3, k + 1, o)
    | (s2, o) => (s2, 0, some o)

/-- States reachable from an empty ledger by committed units of work of the
Transactional Applier (failed units leave the state unchanged, so success
steps suffice). -/
inductive Reach {α : Type} : PgState α → Prop where
  | init (d : α) : Reach ⟨d, [], 0, 0⟩
  | stepForward (exec : String → α → Option α) (n sql : String) (s s2 : PgState α) :
      Reach s → migrateForwardRun exec s n sql = (s2, none) → Reach s2
  | stepBackward (exec : String → α → Option α) (n sql : String) (s s2 : PgState α) :
      Reach s → migrateBackwardRun exec s n sql = (s2, none) → Reach s2

/-- Invariant of the engine's states: the ledger is strictly increasing in
both `id` and `appliedAt`, and `nextId`/`clock` dominate all stored rows. -/
def StateOK {α : Type} (s : PgState α) : Prop :=
  s.ledger.Pairwise (fun a b => a.id < b.id ∧ a.appliedAt < b.appliedAt) ∧
  ∀ e ∈ s.ledger, e.id < s.nextId ∧ e.appliedAt < s.clock

/-- Character class `[a-zA-Z0-9_-]` of the migration file-name regex. -/
def isWordChar (c : Char) : Bool :=
  c.isAlpha || c.isDigit || c = '_' || c = '-'

/-- Matcher for the Go regex `^[0-9]{14}-[a-zA-Z0-9_-]+.sql$`
(src/main.go line 401).  The `.` is unescaped, so it matches any character
except a newline (Go regexp's `.` excludes `\n` while the `s` flag is not
set).  Because the regex is anchored, a string matches exactly when it
decomposes as 14 digits, `-`, a non-empty run of `[a-zA-Z0-9_-]`, one
arbitrary non-newline character, and the literal `sql`; positionally:
length at least 20, first 14 characters digits, 15th `-`, everything from
position 15 up to the 5th-from-last position in the class, the
4th-from-last character not a newline, and the last three characters
`sql`. -/
def migrationFileNameMatches (s : List Char) : Bool :=
  decide (20 ≤ s.length) &&
  (s.take 14).all Char.isDigit &&
  (s.drop 14).take 1 == ['-'] &&
  ((s.drop 15).take (s.length - 19)).all isWordChar &&
  (s.drop (s.length - 4)).take 1 != ['\n'] &&
  s.drop (s.length - 3) == ['s', 'q', 'l']

/-- Modelled from the spec of claim C9: the pattern the claim describes —
exactly 14 digits, a hyphen, one or more characters from `[a-zA-Z0-9_-]`,
and a literal `.sql` suffix.  To be compared with
`migrationFileNameMatches`, which embeds the source's actual regex. -/
def claimedFileNamePattern (s : List Char) : Bool :=
  decide (20 ≤ s.length) &&
  (s.take 14).all Char.isDigit &&
  (s.drop 14).take 1 == ['-'] &&
  ((s.drop 15).take (s.length - 19)).all isWordChar &&
  s.drop (s.length - 4) == ['.', 's', 'q', 'l']

/-- Go `getMigrationsFromFileSystem` (src/main.go lines 395-413): keep the
directory entries whose names match the regex, then sort ascending
(`sort.Strings`; lexicographic, which Lean's `List.insertionSort` with
string `≤` models). -/
def getMigrationsFromFileSystem (files : List String) : List String :=
  (files.filter (fun f => migrationFileNameMatches f.data)).insertionSort (fun a b => a ≤ b)

/-- Every error exit of `readMigrationFromFile` reports `MalformedDefinition`
for the file being read. -/
theorem readMigrationFromFile_error_shape {n c : String} {e : MigErr}
    (h : readMigrationFromFile n c = .error e) : e = .MalformedDefinition n := by
  simp only [readMigrationFromFile] at h
  repeat' split at h
  all_goals simp_all

/-- If every migration file parses, the validation loop passes. -/
theorem validateAll_eq_none : ∀ {fs : List (String × String)},
    (∀ p ∈ fs, isOkResult (readMigrationFromFile p.1 p.2) = true) →
    validateAll fs = none := by
  intro fs
  induction fs with
  | nil => intro _; rfl
  | cons p rest ih =>
    intro h
    have hp := h p (List.mem_cons_self p rest)
    obtain ⟨n, c⟩ := p
    unfold validateAll
    cases hr : readMigrationFromFile n c with
    | error e => rw [hr] at hp; simp [isOkResult] at hp
    | ok r => exact ih (fun q hq => h q (List.mem_cons_of_mem _ hq))

/-- If some migration file fails to parse, the validation loop reports a
`MalformedDefinition` (for the first failing file). -/
theorem validateAll_malformed : ∀ {fs : List (String × String)} {p : String × String},
    p ∈ fs → isOkResult (readMigrationFromFile p.1 p.2) = false →
    ∃ q, validateAll fs = some (.MalformedDefinition q) := by
  intro fs
  induction fs with
  | nil => intro p hp; exact absurd hp (List.not_mem_nil p)
  | cons hd rest ih =>
    intro p hp hbad
    obtain ⟨n, c⟩ := hd
    unfold validateAll
    cases hr : readMigrationFromFile n c with
    | error e =>
      exact ⟨n, by rw [readMigrationFromFile_error_shape hr]⟩
    | ok r =>
      rcases List.mem_cons.mp hp with heq | hmem
      · subst heq; rw [hr] at hbad; simp [isOkResult] at hbad
      · exact ih hmem hbad

/-- The mismatch scan finds nothing on a prefix. -/
theorem firstMismatch_eq_none : ∀ {db fsn : List String}, ∀ i : Nat,
    db <+: fsn → firstMismatch i db fsn = none := by
  intro db
  induction db with
  | nil => intro fsn i _; rfl
  | cons d ds ih =>
    intro fsn i hpre
    obtain ⟨t, ht⟩ := hpre
    cases fsn with
    | nil => exact absurd ht (by simp)
    | cons f fsn2 =>
      have h1 : d = f ∧ ds ++ t = fsn2 := by
        constructor
        · exact (List.cons.injEq _ _ _ _).mp ht |>.1
        · exact (List.cons.injEq _ _ _ _).mp ht |>.2
      unfold firstMismatch
      rw [if_pos h1.1]
      exact ih (i + 1) ⟨t, h1.2⟩

/-- The Reconciler succeeds when the source is non-empty, every definition
parses, and the ledger names form a prefix of the canonical order; it then
returns the canonical order and the applied order unchanged. -/
theorem checkConsistency_ok {fs : List (String × String)} {db : List String}
    (hne : fs ≠ [])
    (hval : ∀ p ∈ fs, isOkResult (readMigrationFromFile p.1 p.2) = true)
    (hpre : db <+: fs.map Prod.fst) :
    checkConsistencyOfDatabaseAndLocalFileSystem fs db = .ok (fs.map Prod.fst, db) := by
  unfold checkConsistencyOfDatabaseAndLocalFileSystem
  rw [if_neg (by simpa using hne), validateAll_eq_none hval]
  rw [if_neg (by
    have := hpre.length_le
    simp only [List.length_map] at this
    omega)]
  rw [firstMismatch_eq_none 0 hpre]

/-- Inversion: a successful reconciliation returns exactly the two orders,
and the source was non-empty. -/
theorem checkConsistency_ok_inv {fs : List (String × String)} {db c a : List String}
    (h : checkConsistencyOfDatabaseAndLocalFileSystem fs db = .ok (c, a)) :
    c = fs.map Prod.fst ∧ a = db ∧ fs ≠ [] := by
  unfold checkConsistencyOfDatabaseAndLocalFileSystem at h
  split at h
  · simp at h
  · rename_i hne
    refine ⟨?_, ?_, by simpa using hne⟩ <;>
      (split at h; · simp at h
       · split at h
         · simp at h
         · split at h
           · simp at h
           · simp_all)

/-- Inversion of a committed forward unit of work. -/
theorem migrateForwardRun_ok_inv {α : Type} {exec : String → α → Option α}
    {s s2 : PgState α} {n sql : String}
    (h : migrateForwardRun exec s n sql = (s2, none)) :
    ∃ d2, exec sql s.db = some d2 ∧
      (s.ledger.any (fun e => e.name == n)) = false ∧
      s2 = ⟨d2, s.ledger ++ [⟨s.nextId, s.clock, n⟩], s.nextId + 1, s.clock + 1⟩ := by
  unfold migrateForwardRun at h
  split at h
  · simp at h
  · rename_i d2 hd2
    split at h
    · simp at h
    · rename_i hdup
      injection h with h1 h2
      exact ⟨d2, hd2, by simpa using hdup, h1.symm⟩

/-- Inversion of a committed backward unit of work. -/
theorem migrateBackwardRun_ok_inv {α : Type} {exec : String → α → Option α}
    {s s2 : PgState α} {n sql : String}
    (h : migrateBackwardRun exec s n sql = (s2, none)) :
    ∃ mre d2, mostRecent s.ledger = some mre ∧ exec sql s.db = some d2 ∧
      s2 = ⟨d2, s.ledger.filter (fun x => x.id != mre.id), s.nextId, s.clock⟩ := by
  unfold migrateBackwardRun at h
  split at h
  · simp at h
  · rename_i mre hmre
    split at h
    · simp at h
    · rename_i d2 hd2
      injection h with h1 h2
      exact ⟨mre, d2, hmre, hd2, h1.symm⟩

/-- A state with an empty ledger satisfies the engine invariant. -/
theorem StateOK_nil {α : Type} {s : PgState α} (h : s.ledger = []) : StateOK s := by
  constructor
  · rw [h]; exact List.Pairwise.nil
  · rw [h]; intro e he; exact absurd he (List.not_mem_nil e)

/-- A committed forward unit preserves the engine invariant. -/
theorem StateOK_forward {α : Type} {exec : String → α → Option α}
    {s s2 : PgState α} {n sql : String}
    (hok : StateOK s) (h : migrateForwardRun exec s n sql = (s2, none)) : StateOK s2 := by
  obtain ⟨d2, _, _, hs2⟩ := migrateForwardRun_ok_inv h
  obtain ⟨hpair, hbound⟩ := hok
  subst hs2
  constructor
  · simp only [List.pairwise_append]
    refine ⟨hpair, List.pairwise_singleton _ _, ?_⟩
    intro a ha b hb
    simp only [List.mem_singleton] at hb
    subst hb
    exact ⟨(hbound a ha).1, (hbound a ha).2⟩
  · intro e he
    simp only [List.mem_append, List.mem_singleton] at he
    rcases he with he | he
    · exact ⟨Nat.lt_succ_of_lt (hbound e he).1, Nat.lt_succ_of_lt (hbound e he).2⟩
    · subst he; exact ⟨Nat.lt_succ_self _, Nat.lt_succ_self _⟩

/-- A committed backward unit preserves the engine invariant. -/
theorem StateOK_backward {α : Type} {exec : String → α → Option α}
    {s s2 : PgState α} {n sql : String}
    (hok : StateOK s) (h : migrateBackwardRun exec s n sql = (s2, none)) : StateOK s2 := by
  obtain ⟨mre, d2, _, _, hs2⟩ := migrateBackwardRun_ok_inv h
  obtain ⟨hpair, hbound⟩ := hok
  subst hs2
  constructor
  · exact List.Pairwise.sublist (List.filter_sublist _) hpair
  · intro e he
    exact hbound e ((List.filter_sublist _).mem he)

/-- On a ledger strictly increasing in `appliedAt`, the row selected by
`ORDER BY created_at DESC LIMIT 1` is the last row. -/
theorem mostRecent_eq_getLast : ∀ {L : List LedgerEntry},
    L.Pairwise (fun x y => x.appliedAt < y.appliedAt) → mostRecent L = L.getLast? := by
  have key : ∀ (l : List LedgerEntry) (a : LedgerEntry),
      l.Pairwise (fun x y => x.appliedAt < y.appliedAt) →
      (∀ x ∈ l, a.appliedAt < x.appliedAt) →
      l.foldl (fun best x => if best.appliedAt < x.appliedAt then x else best) a
        = l.getLast?.getD a := by
    intro l
    induction l with
    | nil => intro a _ _; rfl
    | cons x xs ih =>
      intro a hpair hgt
      rw [List.foldl_cons, if_pos (hgt x (List.mem_cons_self x xs))]
      rw [ih x (List.Pairwise.sublist (List.sublist_cons_self x xs) hpair)
        (fun y hy => (List.pairwise_cons.mp hpair).1 y hy)]
      rw [List.getLast?_cons]
      cases hxs : xs.getLast? with
      | none =>
        have : xs = [] := by
          cases xs with
          | nil => rfl
          | cons z zs => rw [List.getLast?_cons] at hxs; simp at hxs
        subst this; rfl
      | some z => rfl
  intro L hpair
  cases L with
  | nil => rfl
  | cons e rest =>
    simp only [mostRecent]
    rw [key rest e (List.Pairwise.sublist (List.sublist_cons_self e rest) hpair)
      (fun y hy => (List.pairwise_cons.mp hpair).1 y hy)]
    rw [List.getLast?_cons]

/-- Deleting the last row by id from an id-strictly-increasing ledger
removes exactly that row. -/
theorem filter_ne_last_id {L0 : List LedgerEntry} {e : LedgerEntry}
    (hpair : (L0 ++ [e]).Pairwise (fun a b => a.id < b.id)) :
    (L0 ++ [e]).filter (fun x => x.id != e.id) = L0 := by
  rw [List.filter_append]
  have h1 : L0.filter (fun x => x.id != e.id) = L0 := by
    rw [List.filter_eq_self]
    intro a ha
    have := (List.pairwise_append.mp hpair).2.2 a ha e (List.mem_singleton_self e)
    simpa using Nat.ne_of_lt this
  rw [h1]
  simp

/-- A name among the keys of the file list can be looked up, and the found
pair is in the list. -/
theorem lookup_mem_of_mem_keys : ∀ {l : List (String × String)} {n : String},
    n ∈ l.map Prod.fst → ∃ c, l.lookup n = some c ∧ (n, c) ∈ l := by
  intro l
  induction l with
  | nil => intro n h; simp at h
  | cons p rest ih =>
    intro n h
    obtain ⟨k, v⟩ := p
    by_cases hk : n = k
    · subst hk
      refine ⟨v, ?_, List.mem_cons_self _ _⟩
      rw [List.lookup_cons]
      simp
    · have hmem : n ∈ rest.map Prod.fst := by
        simp only [List.map_cons, List.mem_cons] at h
        exact h.resolve_left hk
      obtain ⟨c, hc, hcm⟩ := ih hmem
      refine ⟨c, ?_, List.mem_cons_of_mem _ hcm⟩
      have hb : (n == k) = false := beq_eq_false_iff_ne.mpr hk
      rw [List.lookup_cons, hb]
      exact hc

/-- The backward unit of work reads and writes only the observable database
state and the ledger; `nextId` and `clock` pass through. -/
theorem migrateBackwardRun_indep {α : Type} (exec : String → α → Option α)
    (n sql : String) (d : α) (L : List LedgerEntry) :
    ∃ d2 L2 o, ∀ i c, migrateBackwardRun exec ⟨d, L, i, c⟩ n sql = (⟨d2, L2, i, c⟩, o) := by
  cases hm : mostRecent L with
  | none =>
    exact ⟨d, L, some .LedgerReadFailed, fun i c => by simp [migrateBackwardRun, hm]⟩
  | some e =>
    cases he : exec sql d with
    | none =>
      exact ⟨d, L, some (.EffectExecutionFailed n),
        fun i c => by simp [migrateBackwardRun, hm, he]⟩
    | some db2 =>
      exact ⟨db2, L.filter (fun x => x.id != e.id), none,
        fun i c => by simp [migrateBackwardRun, hm, he]⟩

/-- The `down` command reads and writes only the observable database state
and the ledger; `nextId` and `clock` pass through. -/
theorem cmd_down_indep {α : Type} (exec : String → α → Option α)
    (fs : List (String × String)) (d : α) (L : List LedgerEntry) :
    ∃ d2 L2 o, ∀ i c, cmd_down exec fs ⟨d, L, i, c⟩ = (⟨d2, L2, i, c⟩, o) := by
  have hnm : ∀ i c, dbNames (⟨d, L, i, c⟩ : PgState α) = L.map (fun e => e.name) :=
    fun i c => rfl
  cases hcc : checkConsistencyOfDatabaseAndLocalFileSystem fs (L.map (fun e => e.name)) with
  | error e =>
    exact ⟨d, L, .err e, fun i c => by simp [cmd_down, hnm, hcc]⟩
  | ok pair =>
    obtain ⟨fsN, dbN⟩ := pair
    cases hl : dbN.getLast? with
    | none => exact ⟨d, L, .emptyLedger, fun i c => by simp [cmd_down, hnm, hcc, hl]⟩
    | some nm =>
      cases hlk : fs.lookup nm with
      | none =>
        exact ⟨d, L, .err (.FileReadFailed nm),
          fun i c => by simp [cmd_down, hnm, hcc, hl, hlk]⟩
      | some content =>
        cases hrm : readMigrationFromFile nm content with
        | error e =>
          exact ⟨d, L, .err e, fun i c => by simp [cmd_down, hnm, hcc, hl, hlk, hrm]⟩
        | ok fb =>
          obtain ⟨f, b⟩ := fb
          obtain ⟨d2, L2, o, hmb⟩ := migrateBackwardRun_indep exec nm b d L
          cases o with
          | none =>
            exact ⟨d2, L2, .reverted nm,
              fun i c => by simp [cmd_down, hnm, hcc, hl, hlk, hrm, hmb i c]⟩
          | some e =>
            exact ⟨d2, L2, .err e,
              fun i c => by simp [cmd_down, hnm, hcc, hl, hlk, hrm, hmb i c]⟩

/-- Iterated reverts read and write only the observable database state and
the ledger; `nextId` and `clock` pass through. -/
theorem revertN_indep {α : Type} (exec : String → α → Option α)
    (fs : List (String × String)) : ∀ (k : Nat) (d : α) (L : List LedgerEntry),
    ∃ d2 L2 b, ∀ i c, revertN exec fs k ⟨d, L, i, c⟩ = (⟨d2, L2, i, c⟩, b) := by
  intro k
  induction k with
  | zero => exact fun d L => ⟨d, L, true, fun i c => rfl⟩
  | succ k ih =>
    intro d L
    obtain ⟨d2, L2, o, hdn⟩ := cmd_down_indep exec fs d L
    cases o with
    | reverted nm =>
      obtain ⟨d3, L3, b, hrn⟩ := ih d2 L2
      exact ⟨d3, L3, b, fun i c => by
        simp only [revertN, hdn i c, hrn i c]⟩
    | emptyLedger =>
      exact ⟨d2, L2, false, fun i c => by simp only [revertN, hdn i c]⟩
    | err e =>
      exact ⟨d2, L2, false, fun i c => by simp only [revertN, hdn i c]⟩

/-- One successful `down` step: with a consistent, valid source, a
non-empty ledger whose last row is `e`, and a backward effect that
succeeds, `cmd_down` reverts exactly `e` (deleting its row and applying
its backward effect) and nothing else. -/
theorem cmd_down_reverts {α : Type} {exec : String → α → Option α}
    {fs : List (String × String)} {s : PgState α} {L0 : List LedgerEntry}
    {e : LedgerEntry} {content f b : String} {d2 : α}
    (hne : fs ≠ [])
    (hval : ∀ p ∈ fs, isOkResult (readMigrationFromFile p.1 p.2) = true)
    (hsok : StateOK s) (hL : s.ledger = L0 ++ [e])
    (hpre : dbNames s <+: fs.map Prod.fst)
    (hlk : fs.lookup e.name = some content)
    (hrm : readMigrationFromFile e.name content = .ok (f, b))
    (hex : exec b s.db = some d2) :
    cmd_down exec fs s = (⟨d2, L0, s.nextId, s.clock⟩, .reverted e.name) := by
  have hnames : dbNames s = L0.map (fun x => x.name) ++ [e.name] := by
    simp [dbNames, hL]
  have hmr : mostRecent s.ledger = some e := by
    rw [mostRecent_eq_getLast (hsok.1.imp (fun h => h.2)), hL, List.getLast?_concat]
  have hfilter : s.ledger.filter (fun x => x.id != e.id) = L0 := by
    rw [hL]
    exact filter_ne_last_id (by rw [← hL]; exact hsok.1.imp (fun h => h.1))
  have hcc : checkConsistencyOfDatabaseAndLocalFileSystem fs (dbNames s)
      = .ok (fs.map Prod.fst, dbNames s) := checkConsistency_ok hne hval hpre
  have hlast : (dbNames s).getLast? = some e.name := by
    rw [hnames, List.getLast?_concat]
  simp only [cmd_down, hcc, hlast, hlk, hrm, migrateBackwardRun, hmr, hex, hfilter]

/-- A successful lookup returns a pair of the list. -/
theorem lookup_mem : ∀ {l : List (String × String)} {n c : String},
    l.lookup n = some c → (n, c) ∈ l := by
  intro l
  induction l with
  | nil => intro n c h; simp [List.lookup] at h
  | cons p rest ih =>
    intro n c h
    obtain ⟨k, v⟩ := p
    rw [List.lookup_cons] at h
    cases hb : n == k with
    | true =>
      rw [hb] at h
      have hk : n = k := beq_iff_eq.mp hb
      have hv : v = c := by injection h
      subst hk; subst hv
      exact List.mem_cons_self _ _
    | false =>
      rw [hb] at h
      exact List.mem_cons_of_mem _ (ih h)

/-- The apply loop splits over list append, halting at the first failure. -/
theorem applyLoop_append {α : Type} (exec : String → α → Option α)
    (fs : List (String × String)) :
    ∀ (xs ys : List String) (s : PgState α),
    applyLoop exec fs s (xs ++ ys) =
      match applyLoop exec fs s xs with
      | (t, none) => applyLoop exec fs t ys
      | (t, some e) => (t, some e) := by
  intro xs
  induction xs with
  | nil => intro ys s; rfl
  | cons n rest ih =>
    intro ys s
    cases hlk : fs.lookup n with
    | none => simp [applyLoop, hlk]
    | some content =>
      cases hrm : readMigrationFromFile n content with
      | error e => simp [applyLoop, hlk, hrm]
      | ok fb =>
        obtain ⟨f, b⟩ := fb
        cases hm : migrateForwardRun exec s n f with
        | mk s2 o =>
          cases o with
          | none =>
            simp only [List.cons_append, applyLoop, hlk, hrm, hm]
            exact ih ys s2
          | some e => simp [applyLoop, hlk, hrm, hm]

/-- A successful apply loop appends exactly the applied names to the ledger
and preserves the engine invariant. -/
theorem applyLoop_ok_inv {α : Type} {exec : String → α → Option α}
    {fs : List (String × String)} :
    ∀ {names : List String} {s s2 : PgState α},
    applyLoop exec fs s names = (s2, none) → StateOK s →
    dbNames s2 = dbNames s ++ names ∧ StateOK s2 := by
  intro names
  induction names with
  | nil =>
    intro s s2 h hok
    unfold applyLoop at h
    injection h with h1 _
    subst h1
    exact ⟨by simp, hok⟩
  | cons n rest ih =>
    intro s s2 h hok
    cases hlk : fs.lookup n with
    | none => simp [applyLoop, hlk] at h
    | some content =>
      cases hrm : readMigrationFromFile n content with
      | error e => simp [applyLoop, hlk, hrm] at h
      | ok fb =>
        obtain ⟨f, b⟩ := fb
        cases hm : migrateForwardRun exec s n f with
        | mk t o =>
          cases o with
          | none =>
            simp only [applyLoop, hlk, hrm, hm] at h
            obtain ⟨d2, hex, hdup, hs⟩ := migrateForwardRun_ok_inv hm
            have hnt : dbNames t = dbNames s ++ [n] := by subst hs; simp [dbNames]
            have hokt : StateOK t := StateOK_forward hok hm
            obtain ⟨h1, h2⟩ := ih h hokt
            rw [h1, hnt]
            exact ⟨by simp, h2⟩
          | some e => simp [applyLoop, hlk, hrm, hm] at h

/-- Inversion of a successful one-element apply loop. -/
theorem applyLoop_singleton_inv {α : Type} {exec : String → α → Option α}
    {fs : List (String × String)} {s s2 : PgState α} {n : String}
    (h : applyLoop exec fs s [n] = (s2, none)) :
    ∃ content f b, fs.lookup n = some content ∧
      readMigrationFromFile n content = .ok (f, b) ∧
      migrateForwardRun exec s n f = (s2, none) := by
  cases hlk : fs.lookup n with
  | none => simp [applyLoop, hlk] at h
  | some content =>
    cases hrm : readMigrationFromFile n content with
    | error e => simp [applyLoop, hlk, hrm] at h
    | ok fb =>
      obtain ⟨f, b⟩ := fb
      cases hm : migrateForwardRun exec s n f with
      | mk t o =>
        cases o with
        | none =>
          simp only [applyLoop, hlk, hrm, hm] at h
          injection h with h1 _
          subst h1
          exact ⟨content, f, b, rfl, hrm, hm⟩
        | some e => simp [applyLoop, hlk, hrm, hm] at h

/-- Round-trip workhorse: reverting as many times as a successful apply loop
applied returns the observable database state and the ledger to their
pre-apply values (under the true-inverses assumption). -/
theorem applyLoop_revertN {α : Type} {exec : String → α → Option α}
    {fs : List (String × String)}
    (hne : fs ≠ [])
    (hval : ∀ p ∈ fs, isOkResult (readMigrationFromFile p.1 p.2) = true)
    (hinv : ∀ n c, (n, c) ∈ fs → ∀ f b, readMigrationFromFile n c = .ok (f, b) →
        ∀ a a2, exec f a = some a2 → exec b a2 = some a) :
    ∀ (names : List String) (s s2 : PgState α),
    StateOK s → (dbNames s ++ names) <+: fs.map Prod.fst →
    applyLoop exec fs s names = (s2, none) →
    revertN exec fs names.length s2 = (⟨s.db, s.ledger, s2.nextId, s2.clock⟩, true) := by
  intro names
  induction names using List.reverseRecOn with
  | nil =>
    intro s s2 _ _ h
    unfold applyLoop at h
    injection h with h1 _
    subst h1
    rfl
  | append_singleton ns m ih =>
    intro s s2 hok hpre h
    rw [applyLoop_append] at h
    cases hns : applyLoop exec fs s ns with
    | mk t o =>
      rw [hns] at h
      cases o with
      | some e => simp at h
      | none =>
        obtain ⟨content, f, b, hlk, hrm, hfw⟩ := applyLoop_singleton_inv h
        obtain ⟨d2, hex, hdup, hs2⟩ := migrateForwardRun_ok_inv hfw
        obtain ⟨hnt, hokt⟩ := applyLoop_ok_inv hns hok
        have hoks2 : StateOK s2 := StateOK_forward hokt hfw
        have hpre2 : (dbNames s ++ ns) <+: fs.map Prod.fst :=
          List.IsPrefix.trans ⟨[m], by simp⟩ hpre
        have hns2 : dbNames s2 = dbNames s ++ ns ++ [m] := by
          have h0 : dbNames s2 = dbNames t ++ [m] := by subst hs2; simp [dbNames]
          rw [h0, hnt]
        have hpre_s2 : dbNames s2 <+: fs.map Prod.fst := by
          rw [hns2]
          simpa [List.append_assoc] using hpre
        have hmem : (m, content) ∈ fs := lookup_mem hlk
        have hbex : exec b s2.db = some t.db := by
          have : s2.db = d2 := by subst hs2; rfl
          rw [this]
          exact hinv m content hmem f b hrm t.db d2 hex
        have hlast : s2.ledger = t.ledger ++ [⟨t.nextId, t.clock, m⟩] := by
          subst hs2; rfl
        have hdown := cmd_down_reverts (e := ⟨t.nextId, t.clock, m⟩)
          hne hval hoks2 hlast hpre_s2 hlk hrm hbex
        have hlen : (ns ++ [m]).length = ns.length + 1 := by simp
        rw [hlen]
        simp only [revertN, hdown]
        have hIH := ih s t hok hpre2 hns
        obtain ⟨D, LL, B, hind⟩ := revertN_indep exec fs ns.length t.db t.ledger
        have h1 := hind t.nextId t.clock
        rw [show (⟨t.db, t.ledger, t.nextId, t.clock⟩ : PgState α) = t from rfl, hIH] at h1
        injection h1 with h1a h1b
        injection h1a with e1 e2 _ _
        have h2 := hind s2.nextId s2.clock
        rw [← e1, ← e2, ← h1b] at h2
        exact h2

/-- Destroy-loop workhorse: with a consistent valid source and always-
succeeding backward effects, the loop empties the ledger with exactly one
revert per row, given any fuel above the row count. -/
theorem destroy_all {α : Type} {exec : String → α → Option α}
    {fs : List (String × String)}
    (hne : fs ≠ [])
    (hval : ∀ p ∈ fs, isOkResult (readMigrationFromFile p.1 p.2) = true)
    (hbwd : ∀ n c, (n, c) ∈ fs → ∀ f b, readMigrationFromFile n c = .ok (f, b) →
        ∀ a : α, (exec b a).isSome) :
    ∀ (k : Nat) (s : PgState α), s.ledger.length = k → StateOK s →
    dbNames s <+: fs.map Prod.fst →
    ∀ fuel, k < fuel →
    ∃ d2, cmd_destroy exec fs fuel s = (⟨d2, [], s.nextId, s.clock⟩, k, some .emptyLedger) := by
  intro k
  induction k with
  | zero =>
    intro s hlen hok hpre fuel hfuel
    have hnil : s.ledger = [] := List.eq_nil_of_length_eq_zero hlen
    have hnm : dbNames s = [] := by simp [dbNames, hnil]
    have hdown : cmd_down exec fs s = (s, .emptyLedger) := by
      have hcc : checkConsistencyOfDatabaseAndLocalFileSystem fs (dbNames s)
          = .ok (fs.map Prod.fst, []) := by
        rw [checkConsistency_ok hne hval hpre, hnm]
      simp only [cmd_down, hcc, List.getLast?_nil]
    cases fuel with
    | zero => omega
    | succ fuel2 =>
      refine ⟨s.db, ?_⟩
      simp only [cmd_destroy, hdown]
      rw [show (⟨s.db, [], s.nextId, s.clock⟩ : PgState α) = s from by rw [← hnil]]
  | succ k ih =>
    intro s hlen hok hpre fuel hfuel
    have hne2 : s.ledger ≠ [] := by intro hx; rw [hx] at hlen; simp at hlen
    obtain ⟨L0, e, hL⟩ : ∃ L0 e, s.ledger = L0 ++ [e] :=
      ⟨s.ledger.dropLast, s.ledger.getLast hne2, (List.dropLast_append_getLast hne2).symm⟩
    have hmeme : e.name ∈ fs.map Prod.fst := by
      have hm : e.name ∈ dbNames s := by simp [dbNames, hL]
      exact hpre.sublist.subset hm
    obtain ⟨content, hlk, hmem⟩ := lookup_mem_of_mem_keys hmeme
    have hvp := hval (e.name, content) hmem
    obtain ⟨f, b, hrm⟩ : ∃ f b, readMigrationFromFile e.name content = .ok (f, b) := by
      cases hr : readMigrationFromFile e.name content with
      | error e2 => rw [hr] at hvp; simp [isOkResult] at hvp
      | ok fb => exact ⟨fb.1, fb.2, rfl⟩
    obtain ⟨d2, hex⟩ := Option.isSome_iff_exists.mp (hbwd e.name content hmem f b hrm s.db)
    have hdown := cmd_down_reverts hne hval hok hL hpre hlk hrm hex
    cases fuel with
    | zero => omega
    | succ fuel2 =>
      have hsub : L0.Sublist s.ledger := by
        rw [hL]; exact List.sublist_append_left _ _
      have hok3 : StateOK (⟨d2, L0, s.nextId, s.clock⟩ : PgState α) :=
        ⟨List.Pairwise.sublist hsub hok.1, fun x hx => hok.2 x (hsub.subset hx)⟩
      have hlen3 : (⟨d2, L0, s.nextId, s.clock⟩ : PgState α).ledger.length = k := by
        have hc := congrArg List.length hL
        simp only [List.length_append, List.length_singleton] at hc
        simp only [hlen] at hc
        simpa using hc.symm
      have hpre3 : dbNames (⟨d2, L0, s.nextId, s.clock⟩ : PgState α) <+: fs.map Prod.fst := by
        refine List.IsPrefix.trans ?_ hpre
        show L0.map (fun x => x.name) <+: dbNames s
        rw [show dbNames s = L0.map (fun x => x.name) ++ [e.name] from by simp [dbNames, hL]]
        exact List.prefix_append _ _
      obtain ⟨d3, hdes⟩ := ih ⟨d2, L0, s.nextId, s.clock⟩ hlen3 hok3 hpre3 fuel2 (by omega)
      refine ⟨d3, ?_⟩
      simp only [cmd_destroy, hdown, hdes]

/-- Every reachable state satisfies the engine invariant. -/
theorem Reach_StateOK {α : Type} : ∀ {s : PgState α}, Reach s → StateOK s := by
  intro s h
  induction h with
  | init d => exact StateOK_nil rfl
  | stepForward exec n sql s s2 _ hstep ih => exact StateOK_forward ih hstep
  | stepBackward exec n sql s s2 _ hstep ih => exact StateOK_backward ih hstep

/-- The row picked by the `ORDER BY created_at DESC LIMIT 1` fold is a row
of the ledger. -/
theorem foldl_pick_mem : ∀ (l : List LedgerEntry) (a : LedgerEntry),
    l.foldl (fun best x => if best.appliedAt < x.appliedAt then x else best) a ∈ a :: l := by
  intro l
  induction l with
  | nil => intro a; exact List.mem_singleton_self a
  | cons x xs ih =>
    intro a
    rw [List.foldl_cons]
    rcases List.mem_cons.mp (ih (if a.appliedAt < x.appliedAt then x else a)) with h1 | h1
    · rw [h1]
      by_cases hc : a.appliedAt < x.appliedAt
      · rw [if_pos hc]; exact List.mem_cons_of_mem _ (List.mem_cons_self _ _)
      · rw [if_neg hc]; exact List.mem_cons_self _ _
    · exact List.mem_cons_of_mem _ (List.mem_cons_of_mem _ h1)

/-- The most recent row, when it exists, is a row of the ledger. -/
theorem mostRecent_mem : ∀ {L : List LedgerEntry} {e : LedgerEntry},
    mostRecent L = some e → e ∈ L := by
  intro L e h
  cases L with
  | nil => simp [mostRecent] at h
  | cons x xs =>
    simp only [mostRecent, Option.some.injEq] at h
    rw [← h]
    exact foldl_pick_mem xs x

/-- Characterization of the index scan: when the applied order fits inside
the canonical order but is not a prefix of it, the scan stops at the
smallest divergent index and reports it with both names. -/
theorem firstMismatch_spec : ∀ {db fsn : List String} (i : Nat),
    db.length ≤ fsn.length → ¬ db <+: fsn →
    ∃ k, k < db.length ∧ db.getD k "" ≠ fsn.getD k "" ∧
      (∀ j, j < k → db.getD j "" = fsn.getD j "") ∧
      firstMismatch i db fsn = some (i + k, db.getD k "", fsn.getD k "") := by
  intro db
  induction db with
  | nil => intro fsn i _ hp; exact absurd List.nil_prefix hp
  | cons d ds ih =>
    intro fsn i hlen hp
    cases fsn with
    | nil => simp at hlen
    | cons f fsn2 =>
      by_cases hd : d = f
      · subst hd
        have hp2 : ¬ ds <+: fsn2 := fun hq => hp (List.cons_prefix_cons.mpr ⟨rfl, hq⟩)
        have hlen2 : ds.length ≤ fsn2.length := by simpa using hlen
        obtain ⟨k, hk1, hk2, hk3, hk4⟩ := ih (i + 1) hlen2 hp2
        refine ⟨k + 1, by simpa using hk1, by simpa using hk2, ?_, ?_⟩
        · intro j hj
          cases j with
          | zero => simp
          | succ j2 =>
            have := hk3 j2 (by omega)
            simpa using this
        · unfold firstMismatch
          rw [if_pos rfl, hk4]
          have harith : i + 1 + k = i + (k + 1) := by omega
          rw [harith]
          simp [List.getD_cons_succ]
      · refine ⟨0, by simp, by simpa using hd, by intro j hj; omega, ?_⟩
        unfold firstMismatch
        rw [if_neg hd]
        simp

/-- Inversion of a successful `down` command: the reverted row is the one
the in-transaction re-read selected, and only that row is deleted. -/
theorem cmd_down_reverted_inv {α : Type} {exec : String → α → Option α}
    {fs : List (String × String)} {t t2 : PgState α} {nm : String}
    (h : cmd_down exec fs t = (t2, .reverted nm)) :
    ∃ mre d2, mostRecent t.ledger = some mre ∧
      t2 = ⟨d2, t.ledger.filter (fun x => x.id != mre.id), t.nextId, t.clock⟩ := by
  cases hcc : checkConsistencyOfDatabaseAndLocalFileSystem fs (dbNames t) with
  | error e => simp [cmd_down, hcc] at h
  | ok pair =>
    obtain ⟨fsN, dbN⟩ := pair
    cases hl : dbN.getLast? with
    | none => simp [cmd_down, hcc, hl] at h
    | some nm2 =>
      cases hlk : fs.lookup nm2 with
      | none => simp [cmd_down, hcc, hl, hlk] at h
      | some content =>
        cases hrm : readMigrationFromFile nm2 content with
        | error e => simp [cmd_down, hcc, hl, hlk, hrm] at h
        | ok fb =>
          obtain ⟨f, b⟩ := fb
          cases hmb : migrateBackwardRun exec t nm2 b with
          | mk t3 o =>
            cases o with
            | none =>
              simp only [cmd_down, hcc, hl, hlk, hrm, hmb] at h
              injection h with h1 h2
              obtain ⟨mre, d2, hmre, hex, ht3⟩ := migrateBackwardRun_ok_inv hmb
              rw [← h1]
              exact ⟨mre, d2, hmre, ht3⟩
            | some e => simp [cmd_down, hcc, hl, hlk, hrm, hmb] at h

/-- Deleting the re-read row strictly shrinks the ledger. -/
theorem length_filter_lt {L : List LedgerEntry} {e : LedgerEntry} (he : e ∈ L) :
    (L.filter (fun x => x.id != e.id)).length < L.length := by
  rw [List.length_filter_lt_length_iff_exists]
  exact ⟨e, he, by simp⟩

/-- Claim C1 (code-bug evidence).  The spec demands that a revert whose
in-transaction re-read returns a name different from the expected one fail
with RevertTargetMismatch, roll back, execute no backward effect and delete
no ledger entry.  The source's `migrateBackward` scans the re-read name but
never compares it (despite its own comment "check that most recent
transaction is the one we are trying to undo"): here the re-read row is
named "a", the caller expects "b", yet the unit commits — the backward
effect runs (db 0 becomes 1) and row "a" is deleted, with no error. -/
theorem C1_revert_target_mismatch_not_checked :
    mostRecent [⟨1, 5, "a"⟩] = some ⟨1, 5, "a"⟩ ∧
    ("a" : String) ≠ "b" ∧
    migrateBackwardRun (fun _ a => some (a + 1)) (⟨0, [⟨1, 5, "a"⟩], 2, 6⟩ : PgState Nat)
      "b" "DROP" = (⟨1, [], 2, 6⟩, none) :=
  ⟨rfl, by decide, rfl⟩

/-- Claim C2 (counterexample).  With an empty ledger but an empty migration
source, `cmd_down` does not stop with the EmptyLedger outcome: it fails
earlier, in reconciliation, with NoDefinitionsFound. -/
theorem C2_counterexample :
    cmd_down (fun _ (a : Nat) => some a) [] ⟨0, [], 0, 0⟩
      = (⟨0, [], 0, 0⟩, .err .NoDefinitionsFound) ∧
    DownOutcome.err .NoDefinitionsFound ≠ .emptyLedger :=
  ⟨rfl, by decide⟩

/-- Claim C2 (amended): provided the migration source is non-empty and
every definition parses, invoking the revert command on a state whose
ledger has no entries stops with the EmptyLedger outcome ("There are no
further migrations that can be reverted.", exit 0) and performs no
database mutation: the returned state is the input state. -/
theorem C2_empty_ledger_no_mutation {α : Type} (exec : String → α → Option α)
    (fs : List (String × String)) (s : PgState α)
    (hne : fs ≠ [])
    (hval : ∀ p ∈ fs, isOkResult (readMigrationFromFile p.1 p.2) = true)
    (hnil : s.ledger = []) :
    cmd_down exec fs s = (s, .emptyLedger) := by
  have hnm : dbNames s = [] := by simp [dbNames, hnil]
  have hcc : checkConsistencyOfDatabaseAndLocalFileSystem fs (dbNames s)
      = .ok (fs.map Prod.fst, []) := by
    rw [checkConsistency_ok hne hval (by rw [hnm]; exact List.nil_prefix), hnm]
  simp only [cmd_down, hcc, List.getLast?_nil]

/-- Witness for the amended claim C2 at a concrete input. -/
theorem C2_empty_ledger_no_mutation_witness :
    cmd_down (fun _ (a : Nat) => some a) [("m", "F" ++ undoMarker ++ "B")] ⟨7, [], 3, 4⟩
      = (⟨7, [], 3, 4⟩, .emptyLedger) :=
  C2_empty_ledger_no_mutation _ _ _ (by decide) (by decide) rfl

/-- Claim C3: when a definition's forward effect fails inside
`migrateForward`, the whole unit of work is rolled back — the returned
state is the pre-state (so the ledger, its length, and the observable
database are unchanged, and no entry for the definition was appended) and
an EffectExecutionFailed error naming the definition is reported. -/
theorem C3_forward_effect_failure_rolls_back {α : Type}
    (exec : String → α → Option α) (s : PgState α) (n sql : String)
    (hfail : exec sql s.db = none) :
    migrateForwardRun exec s n sql = (s, some (.EffectExecutionFailed n)) ∧
    (migrateForwardRun exec s n sql).1.ledger.length = s.ledger.length ∧
    (migrateForwardRun exec s n sql).1.db = s.db := by
  have h : migrateForwardRun exec s n sql = (s, some (.EffectExecutionFailed n)) := by
    unfold migrateForwardRun
    rw [hfail]
  exact ⟨h, by rw [h], by rw [h]⟩

/-- Witness for claim C3 at a concrete input. -/
theorem C3_forward_effect_failure_rolls_back_witness :
    migrateForwardRun (fun _ (_ : Nat) => none) ⟨0, [], 0, 0⟩ "m" "BAD"
      = (⟨0, [], 0, 0⟩, some (.EffectExecutionFailed "m")) :=
  (C3_forward_effect_failure_rolls_back _ _ _ _ rfl).1

/-- Claim C10: when reconciliation succeeds with applied order and
canonical order of equal length, the applied order is non-empty (the
Reconciler rejects an empty source with NoDefinitionsFound), so the access
to its last element is safe, and `cmd_up` performs no mutation in this
branch, reporting up-to-date with that last element. -/
theorem C10_up_to_date_branch_safe {α : Type} (exec : String → α → Option α)
    (fs : List (String × String)) (s : PgState α) (c a : List String)
    (hcc : checkConsistencyOfDatabaseAndLocalFileSystem fs (dbNames s) = .ok (c, a))
    (hlen : a.length = c.length) :
    a ≠ [] ∧ a.getLast?.isSome = true ∧
    cmd_up exec fs s = (s, .alreadyUpToDate a.getLast?) := by
  obtain ⟨hc, ha, hne⟩ := checkConsistency_ok_inv hcc
  have hane : a ≠ [] := by
    intro h0
    rw [h0] at hlen
    rw [hc] at hlen
    have : fs.map Prod.fst = [] := by
      cases hmap : fs.map Prod.fst with
      | nil => rfl
      | cons x xs => rw [hmap] at hlen; simp at hlen
    exact hne (List.map_eq_nil_iff.mp this)
  refine ⟨hane, List.getLast?_isSome.mpr hane, ?_⟩
  simp only [cmd_up, hcc, if_pos hlen]

/-- Witness for claim C10 at a concrete input. -/
theorem C10_up_to_date_branch_safe_witness :
    (["m"] : List String) ≠ [] ∧ (["m"] : List String).getLast?.isSome = true ∧
    cmd_up (fun _ (a : Nat) => some a) [("m", "F" ++ undoMarker ++ "B")]
      ⟨5, [⟨0, 0, "m"⟩], 1, 1⟩
      = (⟨5, [⟨0, 0, "m"⟩], 1, 1⟩, .alreadyUpToDate (["m"] : List String).getLast?) :=
  C10_up_to_date_branch_safe _ _ _ _ _ rfl rfl

/-- Claim C4 (counterexample).  The claim quantifies over every canonical
order and applied order and says reconcile returns both orders when the
applied order is not longer and nowhere divergent; with an empty source and
an empty ledger neither failure condition holds, yet the code fails with
NoDefinitionsFound instead of returning the orders. -/
theorem C4_counterexample :
    checkConsistencyOfDatabaseAndLocalFileSystem [] [] = .error .NoDefinitionsFound ∧
    checkConsistencyOfDatabaseAndLocalFileSystem [] [] ≠ .ok ([], []) :=
  ⟨rfl, fun h => Except.noConfusion h⟩

/-- Claim C4 (amended): provided the source is non-empty and every
definition parses, the Reconciler fails with LedgerAheadOfSource exactly
when the applied order is longer than the canonical order; when it is not
longer but diverges, it fails with LedgerDivergesFromSource at the smallest
divergent index, reporting that index and both names; and when the applied
order is a prefix of the canonical order it returns both orders
unchanged. -/
theorem C4_reconcile_characterization (fs : List (String × String)) (db : List String)
    (hne : fs ≠ [])
    (hval : ∀ p ∈ fs, isOkResult (readMigrationFromFile p.1 p.2) = true) :
    ((fs.map Prod.fst).length < db.length →
      checkConsistencyOfDatabaseAndLocalFileSystem fs db = .error .LedgerAheadOfSource) ∧
    (db <+: fs.map Prod.fst →
      checkConsistencyOfDatabaseAndLocalFileSystem fs db = .ok (fs.map Prod.fst, db)) ∧
    (db.length ≤ (fs.map Prod.fst).length → ¬ db <+: fs.map Prod.fst →
      ∃ k, k < db.length ∧
        db.getD k "" ≠ (fs.map Prod.fst).getD k "" ∧
        (∀ j, j < k → db.getD j "" = (fs.map Prod.fst).getD j "") ∧
        checkConsistencyOfDatabaseAndLocalFileSystem fs db
          = .error (.LedgerDivergesFromSource k (db.getD k "")
              ((fs.map Prod.fst).getD k ""))) := by
  refine ⟨?_, fun hp => checkConsistency_ok hne hval hp, ?_⟩
  · intro hlen
    unfold checkConsistencyOfDatabaseAndLocalFileSystem
    rw [if_neg (by simpa [List.isEmpty_iff] using hne), validateAll_eq_none hval,
      if_pos (by simpa using hlen)]
  · intro hlen hp
    obtain ⟨k, hk1, hk2, hk3, hk4⟩ := firstMismatch_spec 0 hlen hp
    refine ⟨k, hk1, hk2, hk3, ?_⟩
    unfold checkConsistencyOfDatabaseAndLocalFileSystem
    rw [if_neg (by simpa [List.isEmpty_iff] using hne), validateAll_eq_none hval,
      if_neg (by simp only [List.length_map] at hlen ⊢; omega)]
    rw [hk4]
    simp

/-- Witness for the amended claim C4: ledger names `[a, b]` against
canonical order `[a, c, b]` diverges at index 1 with names `b` and `c`
(the spec's own example scenario). -/
theorem C4_reconcile_characterization_witness :
    ∃ k, k < (["a", "b"] : List String).length ∧
      (["a", "b"] : List String).getD k "" ≠
        (([("a", "F" ++ undoMarker ++ "B"), ("c", "F" ++ undoMarker ++ "B"),
           ("b", "F" ++ undoMarker ++ "B")].map Prod.fst) : List String).getD k "" ∧
      (∀ j, j < k → (["a", "b"] : List String).getD j "" =
        (([("a", "F" ++ undoMarker ++ "B"), ("c", "F" ++ undoMarker ++ "B"),
           ("b", "F" ++ undoMarker ++ "B")].map Prod.fst) : List String).getD j "") ∧
      checkConsistencyOfDatabaseAndLocalFileSystem
          [("a", "F" ++ undoMarker ++ "B"), ("c", "F" ++ undoMarker ++ "B"),
           ("b", "F" ++ undoMarker ++ "B")] ["a", "b"]
        = .error (.LedgerDivergesFromSource k ((["a", "b"] : List String).getD k "")
            ((([("a", "F" ++ undoMarker ++ "B"), ("c", "F" ++ undoMarker ++ "B"),
               ("b", "F" ++ undoMarker ++ "B")].map Prod.fst) : List String).getD k "")) :=
  (C4_reconcile_characterization _ ["a", "b"] (by decide) (by decide)).2.2
    (by decide)
    (by
      intro hp
      obtain ⟨t, ht⟩ := hp
      simp at ht)

/-- Claim C6: on every reachable state, the ledger is strictly increasing
in both `sequenceId` and `appliedAt`, so sorting by either key yields the
same sequence (the applied order), and the entry selected by
`appliedAt` descending limit one is the last element of the applied order
(both as a row and as the name reconcile's applied order ends with). -/
theorem C6_applied_order_equals_time_order {α : Type} (s : PgState α) (h : Reach s) :
    s.ledger.Pairwise (fun a b => a.id < b.id) ∧
    s.ledger.Pairwise (fun a b => a.appliedAt < b.appliedAt) ∧
    s.ledger.insertionSort (fun a b => a.id ≤ b.id)
      = s.ledger.insertionSort (fun a b => a.appliedAt ≤ b.appliedAt) ∧
    mostRecent s.ledger = s.ledger.getLast? ∧
    (mostRecent s.ledger).map (fun e => e.name) = (dbNames s).getLast? := by
  have hok := Reach_StateOK h
  have hid : s.ledger.Pairwise (fun a b => a.id < b.id) :=
    hok.1.imp (fun hx => hx.1)
  have htime : s.ledger.Pairwise (fun a b => a.appliedAt < b.appliedAt) :=
    hok.1.imp (fun hx => hx.2)
  have hmr : mostRecent s.ledger = s.ledger.getLast? := mostRecent_eq_getLast htime
  refine ⟨hid, htime, ?_, hmr, ?_⟩
  · rw [List.Sorted.insertionSort_eq (hid.imp (fun hx => le_of_lt hx)),
      List.Sorted.insertionSort_eq (htime.imp (fun hx => le_of_lt hx))]
  · rw [hmr, dbNames, List.getLast?_map]

/-- Witness for claim C6 at a concrete reachable state (one forward
apply from an empty ledger). -/
theorem C6_applied_order_equals_time_order_witness :
    ([⟨0, 0, "a"⟩] : List LedgerEntry).Pairwise (fun a b => a.id < b.id) ∧
    ([⟨0, 0, "a"⟩] : List LedgerEntry).Pairwise (fun a b => a.appliedAt < b.appliedAt) ∧
    ([⟨0, 0, "a"⟩] : List LedgerEntry).insertionSort (fun a b => a.id ≤ b.id)
      = ([⟨0, 0, "a"⟩] : List LedgerEntry).insertionSort (fun a b => a.appliedAt ≤ b.appliedAt) ∧
    mostRecent [⟨0, 0, "a"⟩] = ([⟨0, 0, "a"⟩] : List LedgerEntry).getLast? ∧
    (mostRecent [⟨0, 0, "a"⟩]).map (fun e => e.name)
      = (dbNames (⟨9, [⟨0, 0, "a"⟩], 1, 1⟩ : PgState Nat)).getLast? :=
  C6_applied_order_equals_time_order (⟨9, [⟨0, 0, "a"⟩], 1, 1⟩ : PgState Nat)
    (Reach.stepForward (fun _ a => some a) "a" "CREATE" ⟨9, [], 0, 0⟩ _ (Reach.init 9) rfl)

/-- Claim C9 (counterexample).  The name `12345678901234-absql` does not
end in `.sql`, so under the claim's pattern it should be excluded from the
canonical order; but the source regex's `.` is unescaped, the name matches
it, and the directory scan includes it. -/
theorem C9_counterexample :
    migrationFileNameMatches ("12345678901234-absql").data = true ∧
    claimedFileNamePattern ("12345678901234-absql").data = false ∧
    "12345678901234-absql" ∈ getMigrationsFromFileSystem ["12345678901234-absql"] := by
  refine ⟨by decide, by decide, ?_⟩
  rw [getMigrationsFromFileSystem,
    List.Perm.mem_iff (List.perm_insertionSort _ _), List.mem_filter]
  exact ⟨List.mem_singleton_self _, by decide⟩

/-- Claim C9 (amended): a directory entry enters the canonical order
exactly when it matches the source regex `^[0-9]{14}-[a-zA-Z0-9_-]+.sql$`,
in which the `.` is unescaped and matches any character other than a
newline (so a `.sql` suffix is not required — any non-newline character
followed by `sql` is accepted); every other file is silently excluded,
with no error (the listing function is total and simply drops it). -/
theorem C9_filename_filter (files : List String) (name : String) :
    name ∈ getMigrationsFromFileSystem files ↔
      name ∈ files ∧ migrationFileNameMatches name.data = true := by
  rw [getMigrationsFromFileSystem,
    List.Perm.mem_iff (List.perm_insertionSort _ _), List.mem_filter]

/-- Claim C5: reading a definition fails (always with MalformedDefinition)
exactly when the separator is missing (split of length one), the split does
not yield exactly two parts, or either part is empty after removing
comment-only lines and surrounding whitespace; and one malformed definition
anywhere in the source blocks `up`, `down` and `destroy` on every database
state — regardless of the ledger's contents, so before the ledger can
matter — with no mutation. -/
theorem C5_malformed_definition_validation :
    (∀ fileName content : String,
      isOkResult (readMigrationFromFile fileName content) = false ↔
        ((splitOnStr undoMarker content).length = 1 ∨
         (splitOnStr undoMarker content).length ≠ 2 ∨
         (∃ up down, splitOnStr undoMarker content = [up, down] ∧
           (cleanUpSQLString up = "" ∨ cleanUpSQLString down = "")))) ∧
    (∀ (α : Type) (exec : String → α → Option α) (fs : List (String × String))
       (s : PgState α) (p : String × String), p ∈ fs →
      isOkResult (readMigrationFromFile p.1 p.2) = false →
      ∃ q, cmd_up exec fs s = (s, .err (.MalformedDefinition q)) ∧
           cmd_down exec fs s = (s, .err (.MalformedDefinition q)) ∧
           ∀ fuel, cmd_destroy exec fs (fuel + 1) s
             = (s, 0, some (.err (.MalformedDefinition q)))) := by
  constructor
  · intro fileName content
    simp only [readMigrationFromFile]
    split
    · rename_i h1
      simp [isOkResult, h1]
    · rename_i h1
      split
      · rename_i up down hp
        rw [hp]
        by_cases hu : cleanUpSQLString up = ""
        · rw [if_pos hu]
          simp [isOkResult, hu]
          exact ⟨up, down, ⟨rfl, rfl⟩, Or.inl hu⟩
        · rw [if_neg hu]
          by_cases hd : cleanUpSQLString down = ""
          · rw [if_pos hd]
            simp [isOkResult, hu, hd]
            exact ⟨up, down, ⟨rfl, rfl⟩, Or.inr hd⟩
          · rw [if_neg hd]
            simp [isOkResult, hu, hd]
      · rename_i hother
        have hlen2 : (splitOnStr undoMarker content).length ≠ 2 := by
          intro h2
          obtain ⟨x, y, hxy⟩ := List.length_eq_two.mp h2
          exact hother x y hxy
        simp [isOkResult, hlen2]
  · intro α exec fs s p hp hbad
    obtain ⟨q, hq⟩ := validateAll_malformed hp hbad
    have hcc : checkConsistencyOfDatabaseAndLocalFileSystem fs (dbNames s)
        = .error (.MalformedDefinition q) := by
      unfold checkConsistencyOfDatabaseAndLocalFileSystem
      rw [if_neg (by simpa [List.isEmpty_iff] using List.ne_nil_of_mem hp), hq]
    have hdown : cmd_down exec fs s = (s, .err (.MalformedDefinition q)) := by
      simp only [cmd_down, hcc]
    refine ⟨q, ?_, hdown, ?_⟩
    · simp only [cmd_up, hcc]
    · intro fuel
      simp only [cmd_destroy, hdown]

/-- Witness for claim C5 at a concrete input: one malformed file (missing
separator) blocks `up`, `down` and `destroy` on a state with a non-empty
ledger, with no mutation. -/
theorem C5_malformed_definition_validation_witness :
    ∃ q, cmd_up (fun _ (a : Nat) => some a) [("bad", "no marker")] ⟨0, [⟨0, 0, "bad"⟩], 1, 1⟩
        = (⟨0, [⟨0, 0, "bad"⟩], 1, 1⟩, .err (.MalformedDefinition q)) ∧
      cmd_down (fun _ (a : Nat) => some a) [("bad", "no marker")] ⟨0, [⟨0, 0, "bad"⟩], 1, 1⟩
        = (⟨0, [⟨0, 0, "bad"⟩], 1, 1⟩, .err (.MalformedDefinition q)) ∧
      cmd_destroy (fun _ (a : Nat) => some a) [("bad", "no marker")] 1 ⟨0, [⟨0, 0, "bad"⟩], 1, 1⟩
        = (⟨0, [⟨0, 0, "bad"⟩], 1, 1⟩, 0, some (.err (.MalformedDefinition q))) := by
  obtain ⟨q, h1, h2, h3⟩ := C5_malformed_definition_validation.2 Nat
    (fun _ a => some a) [("bad", "no marker")] ⟨0, [⟨0, 0, "bad"⟩], 1, 1⟩
    ("bad", "no marker") (List.mem_singleton_self _) (by decide)
  exact ⟨q, h1, h2, h3 0⟩

/-- Claim C7: for a valid definition set, starting from an empty ledger, a
completed `up` run (applying the full forward delta in canonical order)
followed by as many reverts returns the ledger to empty and — assuming each
definition's forward and backward effects are true inverses — restores the
observable database state to its pre-apply value. -/
theorem C7_round_trip {α : Type} (exec : String → α → Option α)
    (fs : List (String × String)) (s0 s1 : PgState α)
    (hval : ∀ p ∈ fs, isOkResult (readMigrationFromFile p.1 p.2) = true)
    (hinv : ∀ n c, (n, c) ∈ fs → ∀ f b, readMigrationFromFile n c = .ok (f, b) →
        ∀ a a2, exec f a = some a2 → exec b a2 = some a)
    (hnil : s0.ledger = [])
    (hup : cmd_up exec fs s0 = (s1, .completed)) :
    revertN exec fs fs.length s1 = (⟨s0.db, [], s1.nextId, s1.clock⟩, true) := by
  cases hcc : checkConsistencyOfDatabaseAndLocalFileSystem fs (dbNames s0) with
  | error e => simp [cmd_up, hcc] at hup
  | ok pair =>
    obtain ⟨fsN, dbN⟩ := pair
    obtain ⟨hc, ha, hne⟩ := checkConsistency_ok_inv hcc
    have hdbn : dbN = [] := by rw [ha]; simp [dbNames, hnil]
    have hlen_ne : ¬ dbN.length = fsN.length := by
      rw [hdbn, hc]
      simp only [List.length_nil, List.length_map]
      intro h0
      exact hne (List.eq_nil_of_length_eq_zero h0.symm)
    simp only [cmd_up, hcc, if_neg hlen_ne] at hup
    rw [hdbn] at hup
    simp only [List.length_nil, List.drop_zero] at hup
    cases hal : applyLoop exec fs s0 fsN with
    | mk s2 o =>
      rw [hal] at hup
      cases o with
      | some e => simp at hup
      | none =>
        injection hup with h1 _
        subst h1
        have hpre : dbNames s0 ++ fsN <+: fs.map Prod.fst := by
          have h0 : dbNames s0 = [] := by simp [dbNames, hnil]
          rw [h0, hc]
          simp
        have hres := applyLoop_revertN hne hval hinv fsN s0 s2
          (StateOK_nil hnil) hpre hal
        rw [hnil] at hres
        rw [show fsN.length = fs.length from by rw [hc]; simp] at hres
        exact hres

/-- Witness for claim C7 at a concrete input: one definition whose forward
effect pushes a value and whose backward effect pops it; after the `up` run
the single revert empties the ledger and restores the empty stack. -/
theorem C7_round_trip_witness :
    revertN
      (fun sql (st : List String) =>
        if sql = "F" then some ("t" :: st)
        else if sql = "B" then some (st.drop 1) else none)
      [("m", "F" ++ undoMarker ++ "B")] 1
      ⟨["t"], [⟨0, 0, "m"⟩], 1, 1⟩
      = (⟨[], [], 1, 1⟩, true) := by
  have h := C7_round_trip
    (fun sql (st : List String) =>
      if sql = "F" then some ("t" :: st)
      else if sql = "B" then some (st.drop 1) else none)
    [("m", "F" ++ undoMarker ++ "B")] ⟨[], [], 0, 0⟩ ⟨["t"], [⟨0, 0, "m"⟩], 1, 1⟩
    (by decide)
    (by
      intro n c hmem f b hrm a a2 hfa
      simp only [List.mem_singleton, Prod.mk.injEq] at hmem
      obtain ⟨hn, hc⟩ := hmem
      subst hn; subst hc
      have hcomp : readMigrationFromFile "m" ("F" ++ undoMarker ++ "B")
          = .ok ("F", "B") := rfl
      rw [hcomp] at hrm
      injection hrm with hfb
      injection hfb with hf hb
      subst hf; subst hb
      simp only [if_pos rfl] at hfa
      injection hfa with ha2
      subst ha2
      simp)
    rfl
    rfl
  simpa using h

/-- Claim C8: the `destroy` loop repeatedly invokes the single-revert
command until the ledger reports empty; with a valid consistent source and
backward effects that succeed, from a ledger of length n it stops with the
empty-ledger outcome after exactly n reverts; each successful revert
strictly decreases the ledger length; and on any failing revert the loop
halts immediately with that error and no further reverts. -/
theorem C8_destroy_terminates {α : Type} (exec : String → α → Option α)
    (fs : List (String × String)) (s : PgState α)
    (hne : fs ≠ [])
    (hval : ∀ p ∈ fs, isOkResult (readMigrationFromFile p.1 p.2) = true)
    (hpre : dbNames s <+: fs.map Prod.fst)
    (hsok : StateOK s)
    (hbwd : ∀ n c, (n, c) ∈ fs → ∀ f b, readMigrationFromFile n c = .ok (f, b) →
        ∀ a : α, (exec b a).isSome) :
    (∀ fuel, s.ledger.length < fuel →
      ∃ d2, cmd_destroy exec fs fuel s
        = (⟨d2, [], s.nextId, s.clock⟩, s.ledger.length, some .emptyLedger)) ∧
    (∀ (t t2 : PgState α) (nm : String), cmd_down exec fs t = (t2, .reverted nm) →
      t2.ledger.length < t.ledger.length) ∧
    (∀ (t t2 : PgState α) (e : MigErr) (fuel : Nat), cmd_down exec fs t = (t2, .err e) →
      cmd_destroy exec fs (fuel + 1) t = (t2, 0, some (.err e))) := by
  refine ⟨fun fuel hf =>
    destroy_all hne hval hbwd s.ledger.length s rfl hsok hpre fuel hf, ?_, ?_⟩
  · intro t t2 nm hdn
    obtain ⟨mre, d2, hmre, ht2⟩ := cmd_down_reverted_inv hdn
    rw [ht2]
    exact length_filter_lt (mostRecent_mem hmre)
  · intro t t2 e fuel hdn
    simp only [cmd_destroy, hdn]

/-- Witness for claim C8 at a concrete input: a single applied migration is
destroyed in exactly one revert, ending on the empty-ledger outcome. -/
theorem C8_destroy_terminates_witness :
    ∃ d2, cmd_destroy (fun _ (a : Nat) => some a) [("m", "F" ++ undoMarker ++ "B")] 2
      ⟨0, [⟨0, 0, "m"⟩], 1, 1⟩
      = (⟨d2, [], 1, 1⟩, 1, some .emptyLedger) := by
  have h := (C8_destroy_terminates (fun _ (a : Nat) => some a)
    [("m", "F" ++ undoMarker ++ "B")] ⟨0, [⟨0, 0, "m"⟩], 1, 1⟩
    (by decide) (by decide) ⟨[], by decide⟩
    (by
      constructor
      · exact List.pairwise_singleton _ _
      · intro e he
        simp only [List.mem_singleton] at he
        subst he
        exact ⟨Nat.one_pos, Nat.one_pos⟩)
    (fun n c _ f b _ a => rfl)).1 2 (by decide)
  exact h

end Migrate
